import Mathlib

/-!
Verification development for the retrieval subsystem of an insurance-document
assistant (`rag.py`): document ingestion (SHA-256 dedup, chunking with overlap,
embedding generation, persistence) and cosine-similarity search.

Modelling conventions:
* Python `str` values are `List Char`; indices are `Int`, because the chunking
  loop produces negative offsets which Python interprets with its slice rules.
* The SHA-256 digest (`hashlib.sha256(...).hexdigest()`) is an external
  primitive; the model is parametric in a function `hashFn` standing for it.
  The claims under study depend only on it being a function of the text.
* The sentence-transformer model is external; embedding calls are modelled by
  oracles `List Char → Option (List ℚ)` (single) and
  `List (List Char) → Option (List (List ℚ))` (batch); `none` stands for the
  exception path of the `try`/`except` blocks.  Vector components are `ℚ`
  (exact stand-ins for the float32 values); norms live in `ℝ`.
* PostgreSQL is modelled by an explicit table state `DBState`; a statement that
  raises rolls the transaction back, i.e. the committed state is returned
  unchanged, mirroring `conn.rollback()` in the `except` arms.
* Timestamps (`upload_date`, `created_at`) and the opaque JSONB `metadata`
  column are not modelled; no claim mentions them.
-/

/-! ### Python string primitives -/

/-- ASCII whitespace: the characters matched by Python's `\s` in `re.sub` and
stripped by `str.strip()` (for the ASCII inputs handled here). -/
def pyIsWs (c : Char) : Bool :=
  c == ' ' || c == '\t' || c == '\n' || c == '\r' || c == '\x0b' || c == '\x0c'

/-- Worker for `re.sub(r'\s+', ' ', text)`: replace every maximal run of
whitespace by a single space.  The flag records whether the previously emitted
character came from a whitespace run. -/
def collapseWsAux : Bool → List Char → List Char
  | _, [] => []
  | prevWs, c :: rest =>
    if pyIsWs c then (if prevWs then [] else [' ']) ++ collapseWsAux true rest
    else c :: collapseWsAux false rest

/-- Model of `re.sub(r'\s+', ' ', text)`. -/
def collapseWs (l : List Char) : List Char :=
  collapseWsAux false l

/-- Model of Python `str.strip()`: drop whitespace from both ends. -/
def pyStrip (l : List Char) : List Char :=
  ((l.dropWhile pyIsWs).reverse.dropWhile pyIsWs).reverse

/-- Model of `re.sub(r'\s+', ' ', text).strip()` (`chunk_text`, line 136). -/
def pyNormalize (l : List Char) : List Char :=
  pyStrip (collapseWs l)

/-- Adjust one slice bound the way Python does for `s[a:b]`, `str.rfind` etc.:
a negative index counts from the end (clamped below by 0), a non-negative one
is clamped above by the length. -/
def sliceAdj (n : Nat) (i : Int) : Nat :=
  if i < 0 then ((n : Int) + i).toNat else min i.toNat n

/-- Model of the Python slice `s[a:b]`. -/
def pySlice (s : List Char) (a b : Int) : List Char :=
  (s.take (sliceAdj s.length b)).drop (sliceAdj s.length a)

/-- Worker for `str.rfind`: fold over the string keeping the last index `i`
with `lo ≤ i < hi` that holds the wanted character; `best` is the running
result ( `-1` when nothing matched yet). -/
def lastHitAux (c : Char) (lo hi : Nat) : List Char → Nat → Int → Int
  | [], _, best => best
  | x :: xs, i, best =>
    lastHitAux c lo hi xs (i + 1) (if lo ≤ i ∧ i < hi ∧ x = c then (i : Int) else best)

/-- Model of Python `s.rfind(c, a, b)` for a single-character needle: the
largest index of `c` inside the slice `s[a:b]`, or `-1`. -/
def pyRfindChar (s : List Char) (c : Char) (a b : Int) : Int :=
  lastHitAux c (sliceAdj s.length a) (sliceAdj s.length b) s 0 (-1)

/-! ### Chunker (`PDFProcessor.chunk_text`, rag.py lines 134-169) -/

/-- One chunk draft as built by `chunk_text`: the dict
`{'text', 'page_number', 'chunk_index', 'start_char', 'end_char'}`. -/
structure PyChunk where
  text : List Char
  page_number : Int
  chunk_index : Nat
  start_char : Int
  end_char : Int
deriving DecidableEq, Repr

/-- The end offset chosen for the window starting at `start` (lines 143-153):
the naive end `start + chunk_size`, pulled back to just past the last sentence
terminator found by the three `rfind` calls whenever the naive end falls before
the end of the text and that terminator is strictly after `start`. -/
def windowEnd (chunkSize : Int) (t : List Char) (start : Int) : Int :=
  let end0 := start + chunkSize
  if end0 < (t.length : Int) then
    let se := max (pyRfindChar t '.' start end0)
      (max (pyRfindChar t '!' start end0) (pyRfindChar t '?' start end0))
    if se > start then se + 1 else end0
  else end0

/-- The `while start < len(text)` loop of `chunk_text` (lines 142-167), with an
explicit fuel so non-termination of the source loop is observable as `none`. -/
def chunkLoop (chunkSize overlap : Int) (t : List Char) (page : Int) :
    Nat → Int → Nat → List PyChunk → Option (List PyChunk)
  | 0, _, _, _ => none
  | fuel + 1, start, idx, acc =>
    if start < (t.length : Int) then
      let e := windowEnd chunkSize t start
      let ctext := pyStrip (pySlice t start e)
      if ctext.isEmpty then
        chunkLoop chunkSize overlap t page fuel (e - overlap) idx acc
      else
        chunkLoop chunkSize overlap t page fuel (e - overlap) (idx + 1)
          (acc ++ [⟨ctext, page, idx, start, e⟩])
    else
      some acc

/-- Model of `PDFProcessor.chunk_text(text, page_number)`; the source defaults
`page_number` to `1`.  `none` means the loop did not finish within `fuel`
iterations (the source loop runs forever on such inputs). -/
def chunkTextF (chunkSize overlap page : Int) (fuel : Nat) (rawText : List Char) :
    Option (List PyChunk) :=
  chunkLoop chunkSize overlap (pyNormalize rawText) page fuel 0 0 []

/-- Model of `PDFProcessor.process_pdf_bytes` (lines 171-183) from the point
where PyPDF2 has extracted the cleaned per-page texts: chunk every page with
its own 1-based page number and concatenate.  Note the source restarts
`chunk_index` at 0 for every page. -/
def processPdfPages (chunkSize overlap : Int) (fuel : Nat) :
    List (List Char × Int) → Option (List PyChunk)
  | [] => some []
  | (t, p) :: rest =>
    match chunkTextF chunkSize overlap p fuel t with
    | none => none
    | some cs =>
      match processPdfPages chunkSize overlap fuel rest with
      | none => none
      | some tail => some (cs ++ tail)

/-! ### Embedding provider (`EmbeddingGenerator`, rag.py lines 37-97) -/

/-- The zero vector substituted on embedding failure; `embedding_dim = 384`. -/
def zeroVec (n : Nat) : List ℚ :=
  List.replicate n 0

/-- Model of `EmbeddingGenerator.generate_embedding` (lines 70-79): the oracle
`enc` stands for `self.model.encode`; `none` is the exception path, on which
the method returns `np.zeros(self.embedding_dim)`. -/
def generateEmbedding (enc : List Char → Option (List ℚ)) (text : List Char) : List ℚ :=
  (enc text).getD (zeroVec 384)

/-- Worker for `listBatches`: walk the texts, `cur` being the current batch in
reverse and `k` its remaining capacity; a full batch is closed when the next
element arrives. -/
def listBatchesAux (bs : Nat) : List α → List α → Nat → List (List α)
  | [], cur, _ => if cur.isEmpty then [] else [cur.reverse]
  | x :: xs, cur, 0 => cur.reverse :: listBatchesAux bs xs [x] (bs - 1)
  | x :: xs, cur, k + 1 => listBatchesAux bs xs (x :: cur) k

/-- Split a list into consecutive batches of size `bs`, as
`range(0, len(texts), batch_size)` slicing does; `bs = 0` never occurs (the
source always passes 32). -/
def listBatches (bs : Nat) (l : List α) : List (List α) :=
  listBatchesAux bs l [] bs

/-- The `for i in range(0, len(texts), batch_size)` loop (lines 88-92): encode
batch after batch, extending the accumulator; an exception anywhere (`none`
from the oracle) aborts the whole `try` block. -/
def encodeBatches (encB : List (List Char) → Option (List (List ℚ))) :
    List (List (List Char)) → Option (List (List ℚ))
  | [] => some []
  | b :: rest =>
    match encB b with
    | none => none
    | some es =>
      match encodeBatches encB rest with
      | none => none
      | some tail => some (es ++ tail)

/-- Model of `EmbeddingGenerator.generate_embeddings_batch` (lines 81-97): on
any failure the `except` arm returns one `np.zeros(self.embedding_dim)` per
input text, discarding the batches already encoded. -/
def generateEmbeddingsBatch (encB : List (List Char) → Option (List (List ℚ)))
    (texts : List (List Char)) (batchSize : Nat) : List (List ℚ) :=
  match encodeBatches encB (listBatches batchSize texts) with
  | some es => es
  | none => texts.map fun _ => zeroVec 384

/-- A sane batch oracle returns one embedding per text of the batch, as
`model.encode` does. -/
def EncBatchWF (encB : List (List Char) → Option (List (List ℚ))) : Prop :=
  ∀ b out, encB b = some out → out.length = b.length

/-! ### Document store state (`_initialize_database`, rag.py lines 222-275) -/

/-- One row of `policy_documents`
(`id SERIAL PRIMARY KEY, document_name, document_hash UNIQUE, total_chunks`). -/
structure DocumentRow where
  id : Nat
  name : List Char
  hash : List Char
  total_chunks : Nat
deriving DecidableEq, Repr

/-- One row of `policy_chunks` (`id SERIAL PRIMARY KEY, document_id, chunk_index,
chunk_text, page_number, chunk_metadata = start/end span, embedding,
UNIQUE(document_id, chunk_index)`). -/
structure ChunkRow where
  id : Nat
  document_id : Nat
  chunk_index : Nat
  chunk_text : List Char
  page_number : Int
  start_char : Int
  end_char : Int
  embedding : List ℚ
deriving DecidableEq, Repr

/-- The committed database: both tables in insertion order, plus the next
values of the two `SERIAL` id sequences. -/
structure DBState where
  docs : List DocumentRow
  chunks : List ChunkRow
  nextDocId : Nat
  nextChunkId : Nat
deriving DecidableEq, Repr

/-- A freshly initialized database. -/
def emptyDB : DBState :=
  ⟨[], [], 0, 0⟩

/-! ### Ingestion (`PolicyWordingRAG.add_policy_document`, rag.py lines 281-388) -/

/-- Result of one `add_policy_document` call.  `outcome` is the returned pair
`(document_id, number_of_chunks)` or the re-raised exception; `state` is the
committed database afterwards.  `didChunk` / `didEmbed` are instrumentation
recording whether the chunking stage, respectively the embedding stage, ran
during the call (used to check the dedup short-circuit claims). -/
structure IngestResult where
  outcome : Except String (Nat × Nat)
  state : DBState
  didChunk : Bool
  didEmbed : Bool
deriving Repr

/-- Python truthiness of the optional `document_text` argument: `None` and the
empty string are falsy. -/
def strTruthy : Option (List Char) → Bool
  | none => false
  | some s => !s.isEmpty

/-- Python `" ".join(strings)` (line 305). -/
def joinSpace (parts : List (List Char)) : List Char :=
  List.intercalate [' '] parts

/-- The two `INSERT` statements of the ingest transaction (lines 336-373),
executed against committed state `st`: insert the `policy_documents` row
(`total_chunks = len(chunks_data)`), then batch-insert the zipped
`(chunk, embedding)` records.  A violated UNIQUE constraint raises, which the
caller turns into a rollback; on success the new committed state is returned.
The document row id comes from the `SERIAL` sequence (`RETURNING id`). -/
def insertDocChunks (st : DBState) (name h : List Char) (cd : List PyChunk)
    (embs : List (List ℚ)) : Except String DBState :=
  if st.docs.any fun d => d.hash == h then
    .error "duplicate key value violates unique constraint on document_hash"
  else if ((cd.zip embs).map fun r => r.1.chunk_index).Nodup ∧
      ∀ c ∈ st.chunks, ¬(c.document_id = st.nextDocId ∧
        c.chunk_index ∈ (cd.zip embs).map fun r => r.1.chunk_index) then
    .ok ⟨st.docs ++ [⟨st.nextDocId, name, h, cd.length⟩],
      st.chunks ++ (cd.zip embs).enum.map (fun p =>
        (⟨st.nextChunkId + p.1, st.nextDocId, p.2.1.chunk_index, p.2.1.text,
          p.2.1.page_number, p.2.1.start_char, p.2.1.end_char, p.2.2⟩ : ChunkRow)),
      st.nextDocId + 1, st.nextChunkId + (cd.zip embs).length⟩
  else
    .error "duplicate key value violates unique constraint on document_id and chunk_index"

/-- Common tail of `add_policy_document` once `chunks_data` and the hash input
are known (lines 312-378): hash, dedup lookup (`SELECT id, total_chunks FROM
policy_documents WHERE document_hash = ...` + `fetchone`), and on a miss the
embedding generation and the insert transaction.  A hit returns the stored pair
without touching the embedding stage; a failed insert rolls back to `st`. -/
def ingestCommon (hashFn : List Char → List Char)
    (encB : List (List Char) → Option (List (List ℚ)))
    (name : List Char) (st : DBState) (hashInput : List Char)
    (cd : List PyChunk) : IngestResult :=
  match st.docs.find? (fun d => d.hash == hashFn hashInput) with
  | some d => ⟨.ok (d.id, d.total_chunks), st, true, false⟩
  | none =>
    match insertDocChunks st name (hashFn hashInput) cd
        (generateEmbeddingsBatch encB (cd.map PyChunk.text) 32) with
    | .ok st2 => ⟨.ok (st.nextDocId, cd.length), st2, true, true⟩
    | .error m => ⟨.error m, st, true, true⟩

/-- The `elif document_text:` / `else: raise` arms of `add_policy_document`
(lines 306-310): a truthy `document_text` is chunked with the default
`page_number = 1`; a missing or empty one raises. -/
def textIngestPath (fuel : Nat) (hashFn : List Char → List Char)
    (encB : List (List Char) → Option (List (List ℚ)))
    (name : List Char) (st : DBState)
    (documentText : Option (List Char)) : Option IngestResult :=
  match documentText with
  | some t =>
    if t.isEmpty then
      some ⟨.error "Either document_text or pdf_bytes must be provided", st, false, false⟩
    else
      match chunkTextF 1500 300 1 fuel t with
      | none => none
      | some cd => some (ingestCommon hashFn encB name st t cd)
  | none =>
    some ⟨.error "Either document_text or pdf_bytes must be provided", st, false, false⟩

/-- Model of `PolicyWordingRAG.add_policy_document` (lines 281-388).
`documentText`/`pdfPages` are the `document_text`/`pdf_bytes` arguments, the
latter given as the page texts PyPDF2 extracts from the bytes.  The chunk size
and overlap are the `PDFProcessor` defaults 1500/300.  For a PDF the hash input
is `" ".join` of the chunk texts (line 305); for plain text it is the text
itself, chunked with the default `page_number = 1`.  `none` means the call
never returns (the chunking loop diverges). -/
def addPolicyDocument (fuel : Nat) (hashFn : List Char → List Char)
    (encB : List (List Char) → Option (List (List ℚ)))
    (name : List Char) (st : DBState) (documentText : Option (List Char))
    (pdfPages : Option (List (List Char × Int))) : Option IngestResult :=
  match pdfPages with
  | some pages =>
    if strTruthy documentText then
      textIngestPath fuel hashFn encB name st documentText
    else
      match processPdfPages 1500 300 fuel pages with
      | none => none
      | some cd =>
        if cd.isEmpty then
          some ⟨.error "Failed to extract text from PDF", st, true, false⟩
        else
          some (ingestCommon hashFn encB name st (joinSpace (cd.map PyChunk.text)) cd)
  | none => textIngestPath fuel hashFn encB name st documentText

/-! ### Similarity search (`search_similar_chunks`, rag.py lines 390-473) -/

/-- Sum of pairwise products, `np.dot` on equal-length vectors. -/
def dotQ (xs ys : List ℚ) : ℚ :=
  (List.zipWith (· * ·) xs ys).sum

/-- Squared Euclidean norm (exact). -/
def normSq (xs : List ℚ) : ℚ :=
  dotQ xs xs

/-- `np.linalg.norm`, in exact real arithmetic. -/
noncomputable def normV (xs : List ℚ) : ℝ :=
  Real.sqrt ((normSq xs : ℚ) : ℝ)

open Classical in
/-- The similarity computation of lines 444-447: cosine similarity guarded by
`if stored_norm > 0 and query_norm > 0`, else `0.0`. -/
noncomputable def cosineSimilarity (query stored : List ℚ) : ℝ :=
  if 0 < normV stored ∧ 0 < normV query then
    ((dotQ query stored : ℚ) : ℝ) / (normV query * normV stored)
  else 0

/-- One scored candidate row as assembled in lines 449-458. -/
structure SearchRow where
  chunk_id : Nat
  document_id : Nat
  chunk_index : Nat
  chunk_text : List Char
  page_number : Int
  similarity_score : ℚ
deriving DecidableEq, Repr

/-- The sort order of `similarities.sort(key=lambda x: x['similarity_score'],
reverse=True)`: `a` may sit before `b` iff its score is at least `b`'s. -/
def scoreGe (a b : SearchRow) : Prop :=
  b.similarity_score ≤ a.similarity_score

instance : DecidableRel scoreGe := fun a b =>
  inferInstanceAs (Decidable (b.similarity_score ≤ a.similarity_score))

instance : IsTotal SearchRow scoreGe :=
  ⟨fun a b => (le_total b.similarity_score a.similarity_score).elim Or.inl Or.inr⟩

instance : IsTrans SearchRow scoreGe :=
  ⟨fun _ _ _ h1 h2 => le_trans h2 h1⟩

/-- Python slice `l[:k]` for an `int` bound `k`: a negative bound counts from
the end. -/
def pySliceTake (l : List α) (k : Int) : List α :=
  if 0 ≤ k then l.take k.toNat else l.take ((l.length : Int) + k).toNat

/-- Candidate handling of `search_similar_chunks` (lines 430-464): an empty
candidate set returns `[]` at once; otherwise the scored rows are stably sorted
by score descending (CPython's stable `list.sort` with `reverse=True`, modelled
by insertion sort with the non-strict order `scoreGe`, which produces the same
list) and truncated by the Python slice `[:top_k]`. -/
def searchRank (cands : List SearchRow) (topK : Int) : List SearchRow :=
  if cands.isEmpty then []
  else pySliceTake (List.insertionSort scoreGe cands) topK

/-! ### Lemmas about the string primitives -/

theorem dropWhile_eq_self_of_all {p : Char → Bool} {l : List Char}
    (h : ∀ x ∈ l, p x = false) : l.dropWhile p = l := by
  cases l with
  | nil => rfl
  | cons x xs => simp [List.dropWhile, h x (by simp)]

theorem pyStrip_eq_self_of_all {l : List Char}
    (h : ∀ x ∈ l, pyIsWs x = false) : pyStrip l = l := by
  unfold pyStrip
  rw [dropWhile_eq_self_of_all h,
    dropWhile_eq_self_of_all (fun x hx => h x (List.mem_reverse.mp hx)),
    List.reverse_reverse]

theorem collapseWsAux_eq_self_of_all {l : List Char}
    (h : ∀ x ∈ l, pyIsWs x = false) : ∀ b, collapseWsAux b l = l := by
  induction l with
  | nil => intro b; rfl
  | cons x xs ih =>
    intro b
    have hx : pyIsWs x = false := h x (by simp)
    simp only [collapseWsAux, hx, Bool.false_eq_true, if_false, List.cons.injEq, true_and]
    exact ih (fun y hy => h y (by simp [hy])) false

theorem pyNormalize_eq_self_of_all {l : List Char}
    (h : ∀ x ∈ l, pyIsWs x = false) : pyNormalize l = l := by
  unfold pyNormalize collapseWs
  rw [collapseWsAux_eq_self_of_all h false, pyStrip_eq_self_of_all h]

theorem lastHitAux_of_none {c : Char} {lo hi : Nat} :
    ∀ (s : List Char) (i : Nat) (best : Int),
    (∀ k, k < s.length → ¬(lo ≤ i + k ∧ i + k < hi ∧ s[k]? = some c)) →
    lastHitAux c lo hi s i best = best := by
  intro s
  induction s with
  | nil => intro i best _; rfl
  | cons x xs ih =>
    intro i best h
    have h0 : ¬(lo ≤ i ∧ i < hi ∧ x = c) := by
      have := h 0 (by simp)
      simpa using this
    show lastHitAux c lo hi xs (i + 1)
      (if lo ≤ i ∧ i < hi ∧ x = c then (i : Int) else best) = best
    rw [if_neg h0]
    apply ih
    intro k hk
    have := h (k + 1) (by simpa using Nat.succ_lt_succ hk)
    simpa [Nat.add_assoc, Nat.add_comm 1 k] using this

theorem lastHitAux_of_max {c : Char} {lo hi : Nat} :
    ∀ (s : List Char) (k i : Nat) (best : Int),
    k < s.length →
    (lo ≤ i + k ∧ i + k < hi ∧ s[k]? = some c) →
    (∀ m, m < s.length → k < m → ¬(lo ≤ i + m ∧ i + m < hi ∧ s[m]? = some c)) →
    lastHitAux c lo hi s i best = ((i + k : Nat) : Int) := by
  intro s
  induction s with
  | nil => intro k i best hk; exact absurd hk (by simp)
  | cons x xs ih =>
    intro k i best hk hcond hmax
    match k with
    | 0 =>
      have hc : lo ≤ i ∧ i < hi ∧ x = c := by simpa using hcond
      show lastHitAux c lo hi xs (i + 1)
        (if lo ≤ i ∧ i < hi ∧ x = c then (i : Int) else best) = _
      rw [if_pos hc]
      rw [lastHitAux_of_none xs (i + 1) (i : Int) ?_]
      · simp
      · intro m hm
        have := hmax (m + 1) (by simpa using Nat.succ_lt_succ hm) (Nat.succ_pos m)
        simpa [Nat.add_assoc, Nat.add_comm 1 m] using this
    | k' + 1 =>
      show lastHitAux c lo hi xs (i + 1)
        (if lo ≤ i ∧ i < hi ∧ x = c then (i : Int) else best) = _
      have hres := ih k' (i + 1)
        (if lo ≤ i ∧ i < hi ∧ x = c then (i : Int) else best)
        (by simpa using Nat.lt_of_succ_lt_succ hk)
        (by simpa [Nat.add_assoc, Nat.add_comm 1 k'] using hcond) ?_
      · rw [hres]; congr 1; omega
      · intro m hm hkm
        have := hmax (m + 1) (by simpa using Nat.succ_lt_succ hm)
          (Nat.succ_lt_succ hkm)
        simpa [Nat.add_assoc, Nat.add_comm 1 m] using this

theorem pyRfindChar_eq_neg_one {s : List Char} {c : Char} {a b : Int}
    (h : ∀ k, k < s.length →
      ¬(sliceAdj s.length a ≤ k ∧ k < sliceAdj s.length b ∧ s[k]? = some c)) :
    pyRfindChar s c a b = -1 := by
  unfold pyRfindChar
  exact lastHitAux_of_none s 0 (-1) (by simpa using h)

theorem pyRfindChar_eq_max {s : List Char} {c : Char} {a b : Int} (k : Nat)
    (hk : k < s.length)
    (hcond : sliceAdj s.length a ≤ k ∧ k < sliceAdj s.length b ∧ s[k]? = some c)
    (hmax : ∀ m, m < s.length → k < m →
      ¬(sliceAdj s.length a ≤ m ∧ m < sliceAdj s.length b ∧ s[m]? = some c)) :
    pyRfindChar s c a b = (k : Int) := by
  unfold pyRfindChar
  have := lastHitAux_of_max s k 0 (-1) hk (by simpa using hcond)
    (by simpa using hmax)
  simpa using this

/-- An empty Python slice: `s[a:0]` is always empty. -/
theorem pySlice_end_zero (s : List Char) (a : Int) : pySlice s a 0 = [] := by
  simp [pySlice, sliceAdj]

/-! ### Step lemmas for the chunking loop -/

theorem chunkLoop_zero (cs ov : Int) (t : List Char) (pg start : Int)
    (idx : Nat) (acc : List PyChunk) :
    chunkLoop cs ov t pg 0 start idx acc = none := rfl

theorem chunkLoop_stop {cs ov : Int} {t : List Char} {pg start : Int}
    (f : Nat) {idx : Nat} {acc : List PyChunk}
    (h : ¬ start < (t.length : Int)) :
    chunkLoop cs ov t pg (f + 1) start idx acc = some acc := by
  simp [chunkLoop, h]

theorem chunkLoop_skip {cs ov : Int} {t : List Char} {pg start : Int}
    (f : Nat) {idx : Nat} {acc : List PyChunk}
    (h : start < (t.length : Int))
    (hemp : (pyStrip (pySlice t start (windowEnd cs t start))).isEmpty = true) :
    chunkLoop cs ov t pg (f + 1) start idx acc =
      chunkLoop cs ov t pg f (windowEnd cs t start - ov) idx acc := by
  simp [chunkLoop, h, hemp]

theorem chunkLoop_keep {cs ov : Int} {t : List Char} {pg start : Int}
    (f : Nat) {idx : Nat} {acc : List PyChunk}
    (h : start < (t.length : Int))
    (hemp : (pyStrip (pySlice t start (windowEnd cs t start))).isEmpty = false) :
    chunkLoop cs ov t pg (f + 1) start idx acc =
      chunkLoop cs ov t pg f (windowEnd cs t start - ov) (idx + 1)
        (acc ++ [⟨pyStrip (pySlice t start (windowEnd cs t start)), pg, idx, start,
          windowEnd cs t start⟩]) := by
  simp [chunkLoop, h, hemp]

/-! ### C4: divergence of the chunking loop under the default configuration -/

/-- A 1602-character text whose only sentence terminator sits at index 1: the
first window is pulled back to `end = 2`, the next start is `2 - 300 = -298`,
and from then on Python's negative-index semantics pin the loop at
`start = -300` forever. -/
def c4Text : List Char :=
  'A' :: '.' :: List.replicate 1600 'x'

theorem c4Text_length : c4Text.length = 1602 := by
  show ('A' :: '.' :: List.replicate 1600 'x').length = 1602
  rw [List.length_cons, List.length_cons, List.length_replicate]

theorem c4Text_get (k : Nat) : c4Text[k]? =
    if k = 0 then some 'A' else if k = 1 then some '.'
    else if k < 1602 then some 'x' else none := by
  match k with
  | 0 =>
    show ('A' :: '.' :: List.replicate 1600 'x')[0]? = _
    rw [List.getElem?_cons_zero]
    rfl
  | 1 =>
    show ('A' :: '.' :: List.replicate 1600 'x')[1]? = _
    rw [List.getElem?_cons_succ, List.getElem?_cons_zero]
    rfl
  | (m + 2) =>
    show ('A' :: '.' :: List.replicate 1600 'x')[m + 2]? = _
    rw [List.getElem?_cons_succ, List.getElem?_cons_succ, List.getElem?_replicate]
    have h0 : ¬(m + 2 = 0) := by omega
    have h1 : ¬(m + 2 = 1) := by omega
    rw [if_neg h0, if_neg h1]
    by_cases hm : m < 1600
    · rw [if_pos hm, if_pos (by omega : m + 2 < 1602)]
    · rw [if_neg hm, if_neg (by omega : ¬(m + 2 < 1602))]

theorem c4Text_no_ws : ∀ x ∈ c4Text, pyIsWs x = false := by
  intro x hx
  rcases hx with _ | ⟨_, hx⟩
  · decide
  · rcases hx with _ | ⟨_, hx⟩
    · decide
    · rw [List.eq_of_mem_replicate hx]; decide

theorem c4_norm : pyNormalize c4Text = c4Text :=
  pyNormalize_eq_self_of_all c4Text_no_ws

theorem c4_rfind_dot : pyRfindChar c4Text '.' 0 1500 = 1 := by
  have hsa : sliceAdj c4Text.length 0 = 0 := by
    rw [c4Text_length]; decide
  have hsb : sliceAdj c4Text.length 1500 = 1500 := by
    rw [c4Text_length]; decide
  have := pyRfindChar_eq_max (s := c4Text) (c := '.') (a := 0) (b := 1500) 1
    (by rw [c4Text_length]; omega)
    (by
      rw [hsa, hsb, c4Text_get]
      exact ⟨Nat.zero_le 1, by omega, rfl⟩)
    (by
      intro m hm h1m
      rw [hsa, hsb, c4Text_get]
      rw [c4Text_length] at hm
      have hm0 : ¬(m = 0) := by omega
      have hm1 : ¬(m = 1) := by omega
      rw [if_neg hm0, if_neg hm1, if_pos hm]
      intro hc
      exact absurd (Option.some.inj hc.2.2) (by decide))
  simpa using this

theorem c4_rfind_other (c : Char) (hcA : ¬('A' = c)) (hcx : ¬('x' = c))
    (hcd : ¬('.' = c)) (a b : Int) : pyRfindChar c4Text c a b = -1 := by
  apply pyRfindChar_eq_neg_one
  intro k hk hcontra
  rcases hcontra with ⟨_, _, hget⟩
  rw [c4Text_get] at hget
  rw [c4Text_length] at hk
  by_cases h0 : k = 0
  · rw [if_pos h0] at hget
    exact hcA (Option.some.inj hget)
  · rw [if_neg h0] at hget
    by_cases h1 : k = 1
    · rw [if_pos h1] at hget
      exact hcd (Option.some.inj hget)
    · rw [if_neg h1, if_pos hk] at hget
      exact hcx (Option.some.inj hget)

theorem c4Text_length_int : ((c4Text.length : Nat) : Int) = 1602 := by
  rw [c4Text_length]; norm_num

theorem c4_we_start : windowEnd 1500 c4Text 0 = 2 := by
  unfold windowEnd
  rw [c4Text_length_int]
  have h1 : ((0 : Int) + 1500) = 1500 := by norm_num
  rw [h1, if_pos (by norm_num : (1500 : Int) < 1602)]
  rw [c4_rfind_dot, c4_rfind_other '!' (by decide) (by decide) (by decide),
    c4_rfind_other '?' (by decide) (by decide) (by decide)]
  norm_num

theorem c4_we_neg (start : Int) (h1 : -300 ≤ start) (h2 : start ≤ -2) :
    windowEnd 1500 c4Text start = 0 := by
  unfold windowEnd
  rw [c4Text_length_int]
  rw [if_pos (by omega : start + 1500 < 1602)]
  have hdot : pyRfindChar c4Text '.' start (start + 1500) = -1 := by
    apply pyRfindChar_eq_neg_one
    intro k hk hc
    rcases hc with ⟨hlo, hhi, _⟩
    rw [c4Text_length] at hlo hhi
    unfold sliceAdj at hlo hhi
    rw [if_pos (show start < 0 by omega)] at hlo
    rw [if_neg (show ¬(start + 1500 < 0) by omega)] at hhi
    omega
  have hbang : pyRfindChar c4Text '!' start (start + 1500) = -1 :=
    c4_rfind_other '!' (by decide) (by decide) (by decide) _ _
  have hq : pyRfindChar c4Text '?' start (start + 1500) = -1 :=
    c4_rfind_other '?' (by decide) (by decide) (by decide) _ _
  rw [hdot, hbang, hq]
  have hmax : max (-1 : Int) (max (-1) (-1)) = -1 := by norm_num
  rw [hmax, if_pos (by omega : (-1 : Int) > start)]
  norm_num

theorem c4_slice_0_2 : pySlice c4Text 0 2 = ['A', '.'] := by
  unfold pySlice
  rw [c4Text_length]
  have ha : sliceAdj 1602 0 = 0 := by decide
  have hb : sliceAdj 1602 2 = 2 := by decide
  rw [ha, hb]
  show (('A' :: '.' :: List.replicate 1600 'x').take 2).drop 0 = _
  rw [List.drop_zero]
  rfl

theorem c4_hangAt (f : Nat) : ∀ (idx : Nat) (acc : List PyChunk),
    chunkLoop 1500 300 c4Text 1 f (-300) idx acc = none := by
  have hwe : windowEnd 1500 c4Text (-300) = 0 :=
    c4_we_neg (-300) (by norm_num) (by norm_num)
  have hlt : (-300 : Int) < (c4Text.length : Int) := by
    rw [c4Text_length_int]; norm_num
  have hemp : (pyStrip (pySlice c4Text (-300) (windowEnd 1500 c4Text (-300)))).isEmpty
      = true := by
    rw [hwe, pySlice_end_zero]; rfl
  induction f with
  | zero => intro idx acc; rfl
  | succ n ih =>
    intro idx acc
    rw [chunkLoop_skip n hlt hemp, hwe]
    have h : (0 : Int) - 300 = -300 := by norm_num
    rw [h]
    exact ih idx acc

/-- C4: the claim is false on the code.  With the default configuration
(`chunk_size = 1500`, `overlap = 300`, so `overlap < target_size` holds) the
`while` loop of `chunk_text` never exits on `c4Text`: the sentence-boundary
pullback gives `end = 2` for the first window, the next start is `2 - 300 =
-298 < 0`, Python's negative-index rules then make every `rfind` return `-1`,
which is still `> start`, so `end` becomes `0` and `start` sticks at
`-300 < len(text)` forever.  In the fuel model: no fuel completes the loop. -/
theorem C4_chunk_text_diverges (fuel : Nat) :
    chunkTextF 1500 300 1 fuel c4Text = none := by
  unfold chunkTextF
  rw [c4_norm]
  match fuel with
  | 0 => rfl
  | f + 1 =>
    have hlt0 : (0 : Int) < (c4Text.length : Int) := by
      rw [c4Text_length_int]; norm_num
    have hemp0 : (pyStrip (pySlice c4Text 0 (windowEnd 1500 c4Text 0))).isEmpty
        = false := by
      rw [c4_we_start, c4_slice_0_2]; rfl
    rw [chunkLoop_keep f hlt0 hemp0, c4_we_start]
    have h2 : (2 : Int) - 300 = -298 := by norm_num
    rw [h2]
    match f with
    | 0 => rfl
    | g + 1 =>
      have hwe1 : windowEnd 1500 c4Text (-298) = 0 :=
        c4_we_neg (-298) (by norm_num) (by norm_num)
      have hlt1 : (-298 : Int) < (c4Text.length : Int) := by
        rw [c4Text_length_int]; norm_num
      have hemp1 : (pyStrip (pySlice c4Text (-298)
          (windowEnd 1500 c4Text (-298)))).isEmpty = true := by
        rw [hwe1, pySlice_end_zero]; rfl
      rw [chunkLoop_skip g hlt1 hemp1, hwe1]
      have h3 : (0 : Int) - 300 = -300 := by norm_num
      rw [h3]
      exact c4_hangAt g _ _

/-! ### Concrete ingestion runs used as failing inputs and witnesses -/

/-- Stand-in for SHA-256 in concrete runs: any fixed function of the text
exercises the dedup logic, which only compares digests for equality. -/
def hashId : List Char → List Char := fun t => t

/-- A batch oracle whose model always fails (the `except` path). -/
def encNone : List (List Char) → Option (List (List ℚ)) := fun _ => none

/-- A well-formed batch oracle returning the one-component vector `[1]` for
every text. -/
def encOne : List (List Char) → Option (List (List ℚ)) :=
  fun bs => some (bs.map fun _ => [1])

/-- The extracted pages of a two-page PDF: `"Hello."` on page 1 and
`"World."` on page 2. -/
def c3Pages : List (List Char × Int) :=
  [("Hello.".toList, 1), ("World.".toList, 2)]

/-- Ingesting that two-page PDF into an empty database. -/
def c3Run : Option IngestResult :=
  addPolicyDocument 4 hashId encNone "pdfdoc".toList emptyDB none (some c3Pages)

/-- Ingesting the plain text `"Hello."` into an empty database. -/
def c10Run : Option IngestResult :=
  addPolicyDocument 4 hashId encOne "doc".toList emptyDB (some "Hello.".toList) none

/-- First ingestion of `"Hello."` for the idempotence check. -/
def c1FirstRun : Option IngestResult :=
  addPolicyDocument 4 hashId encOne "doc1".toList emptyDB (some "Hello.".toList) none

/-- Second ingestion of the byte-identical text against the state left by the
first one. -/
def c1SecondRun : Option IngestResult :=
  match c1FirstRun with
  | some r =>
    addPolicyDocument 4 hashId encOne "doc2".toList r.state (some "Hello.".toList) none
  | none => none

/-- C3: the claim is false on the code and the schema is right: the two-page
PDF with pages `"Hello."` and `"World."` chunks to chunk indices `[0, 0]`
(`process_pdf_bytes` restarts `chunk_index` at 0 on every page), so the batch
insert violates `UNIQUE(document_id, chunk_index)`: the ingest call errors out
and the transaction rolls back, leaving the database empty. -/
theorem C3_pdf_chunk_index_collision :
    (processPdfPages 1500 300 4 c3Pages).map (fun l => l.map PyChunk.chunk_index)
      = some [0, 0] ∧
    c3Run.map (fun r => (r.outcome.toOption, r.state)) = some (none, emptyDB) := by
  constructor
  · rfl
  · rfl

/-- C10 counterexample: ingesting plain `document_text` (no page information)
stores its chunk with `page_number = 1`, not `0`: `chunk_text` defaults its
`page_number` parameter to `1` and always writes that key into the chunk dict,
so the `chunk.get('page_number', 0)` fallback never fires. -/
theorem C10_plain_text_page_number_is_one :
    c10Run.map (fun r => (r.outcome.toOption, r.state.chunks.map ChunkRow.page_number))
      = some (some (0, 1), [1]) := by
  rfl

/-- C1 counterexample: on the second, byte-identical ingestion the dedup hit
returns the stored identifier without touching the tables or the embedder, but
`didChunk = true`: the text is chunked again before the hash is even computed
(lines 306-313 chunk first, then hash), so the claim that no new chunks are
computed because hashing happens before chunking is false. -/
theorem C1_second_call_rechunks :
    c1SecondRun.map (fun r =>
        (r.outcome.toOption, r.state.docs.length, r.state.chunks.length,
          r.didEmbed, r.didChunk))
      = some (some (0, 1), 1, 1, false, true) := by
  rfl

/-! ### Lemmas about the embedding provider -/

theorem listBatchesAux_flatten (bs : Nat) :
    ∀ (l cur : List α) (k : Nat),
    (listBatchesAux bs l cur k).flatten = cur.reverse ++ l := by
  intro l
  induction l with
  | nil =>
    intro cur k
    show (if cur.isEmpty then ([] : List (List α)) else [cur.reverse]).flatten
      = cur.reverse ++ []
    by_cases h : cur.isEmpty
    · rw [if_pos h]
      rw [List.isEmpty_iff] at h
      simp [h]
    · rw [if_neg h]; simp
  | cons x xs ih =>
    intro cur k
    match k with
    | 0 =>
      show (cur.reverse :: listBatchesAux bs xs [x] (bs - 1)).flatten = _
      rw [List.flatten_cons, ih [x] (bs - 1)]
      simp
    | k + 1 =>
      show (listBatchesAux bs xs (x :: cur) k).flatten = _
      rw [ih (x :: cur) k]
      simp

theorem listBatches_flatten (bs : Nat) (l : List α) :
    (listBatches bs l).flatten = l := by
  unfold listBatches
  rw [listBatchesAux_flatten]
  simp

theorem encodeBatches_length {encB : List (List Char) → Option (List (List ℚ))}
    (hwf : EncBatchWF encB) :
    ∀ (bs : List (List (List Char))) (es : List (List ℚ)),
    encodeBatches encB bs = some es → es.length = bs.flatten.length := by
  intro bs
  induction bs with
  | nil =>
    intro es h
    simp only [encodeBatches, Option.some.injEq] at h
    rw [← h]
    rfl
  | cons b rest ih =>
    intro es h
    unfold encodeBatches at h
    cases hb : encB b with
    | none => rw [hb] at h; cases h
    | some e1 =>
      rw [hb] at h
      cases hr : encodeBatches encB rest with
      | none => rw [hr] at h; cases h
      | some tail =>
        rw [hr] at h
        simp only [Option.some.injEq] at h
        rw [← h, List.flatten_cons, List.length_append, List.length_append,
          hwf b e1 hb, ih tail hr]

theorem generateEmbeddingsBatch_length {encB : List (List Char) → Option (List (List ℚ))}
    (hwf : EncBatchWF encB) (texts : List (List Char)) (bs : Nat) :
    (generateEmbeddingsBatch encB texts bs).length = texts.length := by
  unfold generateEmbeddingsBatch
  cases h : encodeBatches encB (listBatches bs texts) with
  | none => simp
  | some es =>
    have := encodeBatches_length hwf _ es h
    rw [listBatches_flatten] at this
    simpa using this

theorem encodeBatches_none_of_mem {encB : List (List Char) → Option (List (List ℚ))} :
    ∀ (bs : List (List (List Char))) (b : List (List Char)),
    b ∈ bs → encB b = none → encodeBatches encB bs = none := by
  intro bs
  induction bs with
  | nil => intro b hb; exact absurd hb (by simp)
  | cons b0 rest ih =>
    intro b hb hnone
    unfold encodeBatches
    rcases List.mem_cons.mp hb with rfl | hmem
    · rw [hnone]
    · cases h0 : encB b0 with
      | none => rfl
      | some e1 => rw [ih b hmem hnone]

theorem idxs_of_zip (cd : List PyChunk) (embs : List (List ℚ))
    (hlen : cd.length ≤ embs.length) :
    ((cd.zip embs).map fun r => r.1.chunk_index) = cd.map PyChunk.chunk_index := by
  have h1 : ((cd.zip embs).map fun r => r.1.chunk_index)
      = ((cd.zip embs).map Prod.fst).map PyChunk.chunk_index := by
    rw [List.map_map]
    rfl
  rw [h1, List.map_fst_zip cd embs hlen]

theorem insertMatch_outcome (st : DBState) (cd : List PyChunk) (x : Except String DBState) :
    (match x with
      | .ok st2 => (⟨.ok (st.nextDocId, cd.length), st2, true, true⟩ : IngestResult)
      | .error m => ⟨.error m, st, true, true⟩).outcome
    = match x with
      | .ok _ => .ok (st.nextDocId, cd.length)
      | .error m => .error m := by
  cases x <;> rfl

theorem ingestCommon_outcome_indep {encB1 encB2 : List (List Char) → Option (List (List ℚ))}
    (h1 : EncBatchWF encB1) (h2 : EncBatchWF encB2)
    (hashFn : List Char → List Char) (nm : List Char) (st : DBState)
    (hashInput : List Char) (cd : List PyChunk) :
    (ingestCommon hashFn encB1 nm st hashInput cd).outcome =
      (ingestCommon hashFn encB2 nm st hashInput cd).outcome := by
  unfold ingestCommon
  cases hfind : st.docs.find? (fun d => d.hash == hashFn hashInput) with
  | some d => rfl
  | none =>
    rw [insertMatch_outcome, insertMatch_outcome]
    have hl1 : cd.length ≤ (generateEmbeddingsBatch encB1 (cd.map PyChunk.text) 32).length := by
      rw [generateEmbeddingsBatch_length h1]
      simp
    have hl2 : cd.length ≤ (generateEmbeddingsBatch encB2 (cd.map PyChunk.text) 32).length := by
      rw [generateEmbeddingsBatch_length h2]
      simp
    unfold insertDocChunks
    rw [idxs_of_zip _ _ hl1, idxs_of_zip _ _ hl2]
    split_ifs <;> rfl

theorem textIngestPath_outcome_indep {encB1 encB2 : List (List Char) → Option (List (List ℚ))}
    (h1 : EncBatchWF encB1) (h2 : EncBatchWF encB2)
    (fuel : Nat) (hashFn : List Char → List Char) (nm : List Char) (st : DBState)
    (dt : Option (List Char)) :
    (textIngestPath fuel hashFn encB1 nm st dt).map (fun r => r.outcome) =
      (textIngestPath fuel hashFn encB2 nm st dt).map (fun r => r.outcome) := by
  unfold textIngestPath
  cases dt with
  | none => rfl
  | some t =>
    dsimp only
    by_cases ht : t.isEmpty
    · rw [if_pos ht, if_pos ht]
    · rw [if_neg ht, if_neg ht]
      cases hc : chunkTextF 1500 300 1 fuel t with
      | none => rfl
      | some cd =>
        show some (ingestCommon hashFn encB1 nm st t cd).outcome
          = some (ingestCommon hashFn encB2 nm st t cd).outcome
        exact congrArg some (ingestCommon_outcome_indep h1 h2 hashFn nm st t cd)

/-- C9: on embedding failure the zero vector of the configured dimension (384)
is substituted rather than an exception raised — `generate_embedding` returns
`np.zeros(384)` when the oracle fails, `generate_embeddings_batch` returns one
zero vector per input text when any batch fails, and the ingest outcome does
not depend on the embedding oracle at all (so a degraded chunk never aborts a
document: the call returns the same `(document_id, chunk_count)` or error
either way). -/
theorem C9_zero_vector_on_failure :
    (∀ (enc1 : List Char → Option (List ℚ)) (t : List Char), enc1 t = none →
      generateEmbedding enc1 t = zeroVec 384) ∧
    (∀ (encB : List (List Char) → Option (List (List ℚ)))
        (texts : List (List Char)) (b : List (List Char)),
      b ∈ listBatches 32 texts → encB b = none →
      generateEmbeddingsBatch encB texts 32 = texts.map fun _ => zeroVec 384) ∧
    (∀ (fuel : Nat) (hashFn : List Char → List Char)
        (encB1 encB2 : List (List Char) → Option (List (List ℚ)))
        (nm : List Char) (st : DBState) (dt : Option (List Char))
        (pp : Option (List (List Char × Int))),
      EncBatchWF encB1 → EncBatchWF encB2 →
      (addPolicyDocument fuel hashFn encB1 nm st dt pp).map (fun r => r.outcome) =
        (addPolicyDocument fuel hashFn encB2 nm st dt pp).map (fun r => r.outcome)) := by
  refine ⟨?_, ?_, ?_⟩
  · intro enc1 t h
    unfold generateEmbedding
    rw [h]
    rfl
  · intro encB texts b hb hnone
    unfold generateEmbeddingsBatch
    rw [encodeBatches_none_of_mem _ b hb hnone]
  · intro fuel hashFn encB1 encB2 nm st dt pp hwf1 hwf2
    unfold addPolicyDocument
    cases pp with
    | none => exact textIngestPath_outcome_indep hwf1 hwf2 fuel hashFn nm st dt
    | some pages =>
      dsimp only
      by_cases hs : strTruthy dt
      · rw [if_pos hs, if_pos hs]
        exact textIngestPath_outcome_indep hwf1 hwf2 fuel hashFn nm st dt
      · rw [if_neg hs, if_neg hs]
        cases hp : processPdfPages 1500 300 fuel pages with
        | none => rfl
        | some cd =>
          dsimp only
          by_cases hcd : cd.isEmpty
          · rw [if_pos hcd, if_pos hcd]
          · rw [if_neg hcd, if_neg hcd]
            show some (ingestCommon hashFn encB1 nm st (joinSpace (cd.map PyChunk.text)) cd).outcome
              = some (ingestCommon hashFn encB2 nm st (joinSpace (cd.map PyChunk.text)) cd).outcome
            exact congrArg some (ingestCommon_outcome_indep hwf1 hwf2 hashFn nm st _ cd)

/-- Witness for C9 at concrete inputs: a failing single-text oracle yields the
384-component zero vector, and a failing batch oracle yields one zero vector
per text. -/
theorem C9_zero_vector_on_failure_witness :
    generateEmbedding (fun _ => none) ['h'] = zeroVec 384 ∧
    generateEmbeddingsBatch encNone [['h']] 32 = [zeroVec 384] := by
  constructor
  · exact C9_zero_vector_on_failure.1 (fun _ => none) ['h'] rfl
  · have := C9_zero_vector_on_failure.2.1 encNone [['h']] [['h']]
      (by decide) rfl
    simpa using this

/-! ### C5: cosine similarity and the zero-norm guard -/

theorem normV_nonneg (xs : List ℚ) : 0 ≤ normV xs :=
  Real.sqrt_nonneg _

theorem dotQ_self_eq_zero_of_all_zero {c : List ℚ} (hz : ∀ x ∈ c, x = (0 : ℚ)) :
    dotQ c c = 0 := by
  unfold dotQ
  apply List.sum_eq_zero
  intro x hx
  rw [List.zipWith_same] at hx
  obtain ⟨a, ha, rfl⟩ := List.mem_map.mp hx
  rw [hz a ha]
  ring

/-- C5: the similarity of lines 444-447 equals
`dot(query, stored) / (norm query * norm stored)` whenever both norms are
positive, is literally `0.0` whenever either norm is zero (so no division by
a zero norm is ever performed — in the exact real model the guarded branch is
only taken with both norms positive), and an all-zero stored embedding scores
exactly `0` against every query. -/
theorem C5_cosine_similarity_guard :
    ∀ q c : List ℚ,
      ((normV q = 0 ∨ normV c = 0) → cosineSimilarity q c = 0) ∧
      (0 < normV q → 0 < normV c →
        cosineSimilarity q c = ((dotQ q c : ℚ) : ℝ) / (normV q * normV c)) ∧
      ((∀ x ∈ c, x = (0 : ℚ)) → cosineSimilarity q c = 0) := by
  have key : ∀ q c : List ℚ, (normV q = 0 ∨ normV c = 0) →
      cosineSimilarity q c = 0 := by
    intro q c h
    unfold cosineSimilarity
    rw [if_neg]
    intro hcon
    rcases h with h | h
    · exact absurd h (ne_of_gt hcon.2)
    · exact absurd h (ne_of_gt hcon.1)
  intro q c
  refine ⟨key q c, ?_, ?_⟩
  · intro h1 h2
    unfold cosineSimilarity
    rw [if_pos ⟨h2, h1⟩]
  · intro hz
    apply key
    right
    unfold normV normSq
    rw [dotQ_self_eq_zero_of_all_zero hz]
    simp

/-- Witness for C5: the all-zero stored embedding `[0, 0]` scores exactly `0`
against the query `[1, 0]`. -/
theorem C5_cosine_similarity_guard_witness :
    cosineSimilarity [1, 0] [0, 0] = 0 :=
  (C5_cosine_similarity_guard [1, 0] [0, 0]).2.2 (by decide)

/-! ### C8: the search path does not validate `top_k` or the query -/

/-- Sample scored rows for concrete search runs. -/
def rowA : SearchRow := ⟨1, 1, 0, ['a'], 1, 1⟩

def rowB : SearchRow := ⟨2, 1, 1, ['b'], 1, 2⟩

def rowC : SearchRow := ⟨3, 1, 2, ['c'], 1, 0⟩

/-- C8 counterexample: `search_similar_chunks` performs no validation at all.
Against a nonempty store, `top_k = 0` returns the empty list — a normal value,
not a validation error — and `top_k = -1` silently returns a truncated result
(two of the three candidates, Python slice semantics), contradicting the claim
that a malformed `top_k <= 0` is rejected with a clear validation error. -/
theorem C8_no_rejection_of_malformed_top_k :
    searchRank [rowA] 0 = [] ∧
    (searchRank [rowA, rowB, rowC] (-1)).length = 2 := by
  constructor
  · rfl
  · decide

/-- C8 (amended): the legacy search applies Python slice semantics to `top_k`
without any guard: `top_k = 0` yields the empty list and a negative `top_k`
yields the sorted candidate list with its last `|top_k|` entries dropped (and
an empty query text is embedded and searched like any other text — there is no
special case for it on the modelled candidate-handling path). -/
theorem C8_malformed_top_k_slice_semantics :
    ∀ (cands : List SearchRow) (k : Int),
      searchRank cands 0 = [] ∧
      (k < 0 → (searchRank cands k).length = cands.length - k.natAbs) := by
  intro cands k
  constructor
  · unfold searchRank
    by_cases h : cands.isEmpty
    · rw [if_pos h]
    · rw [if_neg h]
      unfold pySliceTake
      rw [if_pos (le_refl 0)]
      simp
  · intro hk
    unfold searchRank
    by_cases h : cands.isEmpty
    · rw [if_pos h]
      rw [List.isEmpty_iff] at h
      subst h
      simp
    · rw [if_neg h]
      unfold pySliceTake
      rw [if_neg (by omega : ¬(0 ≤ k))]
      rw [List.length_take, List.length_insertionSort]
      omega

/-- Witness for C8 (amended) at a concrete negative `top_k`. -/
theorem C8_malformed_top_k_slice_semantics_witness :
    (searchRank [rowA, rowB] (-1)).length = 1 := by
  have h := (C8_malformed_top_k_slice_semantics [rowA, rowB] (-1)).2 (by norm_num)
  simpa using h

/-! ### C6: ranking is a stable descending sort truncated to `top_k` -/

/-- `scoreGe` lifted to position-annotated rows. -/
def scoreGeP (a b : Nat × SearchRow) : Prop :=
  b.2.similarity_score ≤ a.2.similarity_score

instance : DecidableRel scoreGeP := fun a b =>
  inferInstanceAs (Decidable (b.2.similarity_score ≤ a.2.similarity_score))

instance : IsTotal (Nat × SearchRow) scoreGeP :=
  ⟨fun a b => (le_total b.2.similarity_score a.2.similarity_score).elim Or.inl Or.inr⟩

instance : IsTrans (Nat × SearchRow) scoreGeP :=
  ⟨fun _ _ _ h1 h2 => le_trans h2 h1⟩

/-- The intended ranking of annotated rows: strictly higher score first, ties
broken by the original (retrieval) position. -/
def rankRel (a b : Nat × SearchRow) : Prop :=
  b.2.similarity_score < a.2.similarity_score ∨
    (a.2.similarity_score = b.2.similarity_score ∧ a.1 < b.1)

theorem orderedInsert_rankRel {x : Nat × SearchRow} {l : List (Nat × SearchRow)}
    (hl : l.Pairwise rankRel) (hpos : ∀ y ∈ l, x.1 < y.1) :
    (l.orderedInsert scoreGeP x).Pairwise rankRel := by
  induction l with
  | nil => simp [List.orderedInsert]
  | cons y ys ih =>
    rcases List.pairwise_cons.mp hl with ⟨hy, hys⟩
    by_cases h : scoreGeP x y
    · rw [List.orderedInsert, if_pos h]
      apply List.pairwise_cons.mpr
      refine ⟨?_, hl⟩
      intro z hz
      rcases List.mem_cons.mp hz with rfl | hz'
      · rcases lt_or_eq_of_le h with hlt | heq
        · exact Or.inl hlt
        · exact Or.inr ⟨heq.symm, hpos z (by simp)⟩
      · have hzy : z.2.similarity_score ≤ y.2.similarity_score := by
          rcases hy z hz' with hlt | ⟨heq, _⟩
          · exact le_of_lt hlt
          · exact le_of_eq heq.symm
        rcases lt_or_eq_of_le (le_trans hzy h) with hlt | heq
        · exact Or.inl hlt
        · exact Or.inr ⟨heq.symm, hpos z (by simp [hz'])⟩
    · rw [List.orderedInsert, if_neg h]
      apply List.pairwise_cons.mpr
      constructor
      · intro z hz
        rcases (List.mem_orderedInsert scoreGeP).mp hz with rfl | hz'
        · exact Or.inl (not_le.mp h)
        · exact hy z hz'
      · exact ih hys (fun z hz => hpos z (List.mem_cons_of_mem y hz))

theorem insertionSort_rankRel :
    ∀ l : List (Nat × SearchRow), l.Pairwise (fun a b => a.1 < b.1) →
    (l.insertionSort scoreGeP).Pairwise rankRel := by
  intro l
  induction l with
  | nil => intro _; simp [List.insertionSort]
  | cons x xs ih =>
    intro hp
    rcases List.pairwise_cons.mp hp with ⟨hx, hxs⟩
    rw [List.insertionSort]
    apply orderedInsert_rankRel (ih hxs)
    intro y hy
    exact hx y ((List.mem_insertionSort scoreGeP).mp hy)

theorem enumFrom_fst_lt (l : List SearchRow) :
    ∀ n, (l.enumFrom n).Pairwise (fun a b => a.1 < b.1) := by
  induction l with
  | nil => intro n; simp
  | cons x xs ih =>
    intro n
    show ((n, x) :: xs.enumFrom (n + 1)).Pairwise (fun a b => a.1 < b.1)
    apply List.pairwise_cons.mpr
    refine ⟨?_, ih (n + 1)⟩
    intro y hy
    obtain ⟨i, a⟩ := y
    have := (List.mk_mem_enumFrom_iff_le_and_getElem?_sub.mp hy).1
    show n < i
    omega

theorem enum_fst_lt (l : List SearchRow) :
    l.enum.Pairwise (fun a b => a.1 < b.1) :=
  enumFrom_fst_lt l 0

/-- C6: candidate handling in `search_similar_chunks` with `top_k ≥ 1`: the
result is sorted by score descending, has exactly `min top_k n` entries (all
`n` candidates when fewer than `top_k` exist, as a permutation of the
candidate set; the empty sequence — not an error — when there are none), and
equals the truncation of the stable sort: sorting the position-annotated
candidates puts them in strictly-descending-score order with ties in original
retrieval order (`rankRel`), and dropping the annotations gives exactly the
list the code computes. -/
theorem C6_search_ranking :
    ∀ (cands : List SearchRow) (k : Int), 1 ≤ k →
      (searchRank cands k).Pairwise
        (fun a b => b.similarity_score ≤ a.similarity_score) ∧
      (searchRank cands k).length = min k.toNat cands.length ∧
      ((cands.length : Int) ≤ k → List.Perm (searchRank cands k) cands) ∧
      (cands = [] → searchRank cands k = []) ∧
      searchRank cands k =
        pySliceTake ((List.insertionSort scoreGeP cands.enum).map Prod.snd) k ∧
      (List.insertionSort scoreGeP cands.enum).Pairwise rankRel := by
  intro cands k hk
  have hmap : (List.insertionSort scoreGeP cands.enum).map Prod.snd
      = List.insertionSort scoreGe (cands.enum.map Prod.snd) :=
    List.map_insertionSort scoreGeP scoreGe Prod.snd cands.enum
      (fun _ _ _ _ => Iff.rfl)
  have hsnd : cands.enum.map Prod.snd = cands := List.enum_map_snd cands
  refine ⟨?_, ?_, ?_, ?_, ?_, ?_⟩
  · unfold searchRank
    by_cases h : cands.isEmpty
    · rw [if_pos h]; exact List.Pairwise.nil
    · rw [if_neg h]
      unfold pySliceTake
      rw [if_pos (by omega : (0 : Int) ≤ k)]
      exact List.Pairwise.sublist (List.take_sublist _ _)
        (List.sorted_insertionSort scoreGe cands)
  · unfold searchRank
    by_cases h : cands.isEmpty
    · rw [if_pos h]
      rw [List.isEmpty_iff] at h
      subst h
      simp
    · rw [if_neg h]
      unfold pySliceTake
      rw [if_pos (by omega : (0 : Int) ≤ k)]
      rw [List.length_take, List.length_insertionSort]
  · intro hlen
    unfold searchRank
    by_cases h : cands.isEmpty
    · rw [if_pos h]
      rw [List.isEmpty_iff] at h
      subst h
      exact List.Perm.refl _
    · rw [if_neg h]
      unfold pySliceTake
      rw [if_pos (by omega : (0 : Int) ≤ k)]
      have htake : (List.insertionSort scoreGe cands).take k.toNat
          = List.insertionSort scoreGe cands := by
        apply List.take_of_length_le
        rw [List.length_insertionSort]
        omega
      rw [htake]
      exact List.perm_insertionSort scoreGe cands
  · intro hc
    subst hc
    rfl
  · rw [hmap, hsnd]
    unfold searchRank
    by_cases h : cands.isEmpty
    · rw [if_pos h]
      rw [List.isEmpty_iff] at h
      subst h
      show ([] : List SearchRow) = pySliceTake (List.insertionSort scoreGe []) k
      unfold pySliceTake
      rw [if_pos (by omega : (0 : Int) ≤ k)]
      simp
    · rw [if_neg h]
  · exact insertionSort_rankRel cands.enum (enum_fst_lt cands)

/-- Witness for C6 at a concrete candidate set (scores `0`, `1`, `2`) and
`top_k = 2`: two results, sorted descending. -/
theorem C6_search_ranking_witness :
    (searchRank [rowC, rowA, rowB] 2).length = 2 ∧
    (searchRank [rowC, rowA, rowB] 2).Pairwise
      (fun a b => b.similarity_score ≤ a.similarity_score) := by
  have h := C6_search_ranking [rowC, rowA, rowB] 2 (by norm_num)
  refine ⟨?_, h.1⟩
  rw [h.2.1]
  decide

/-! ### C2: atomicity of the ingest transaction -/

/-- What a committed ingest may have done to the database: an error leaves it
untouched (full rollback), and a success either re-used an existing Document
(dedup hit, nothing written) or appended exactly one Document row together
with all of its Chunk rows, nothing else. -/
def IngestPost (nm : List Char) (st : DBState) (r : IngestResult) : Prop :=
  (∀ m, r.outcome = .error m → r.state = st) ∧
  (∀ docId n, r.outcome = .ok (docId, n) →
    (r.state = st ∧ ∃ d ∈ st.docs, d.id = docId ∧ d.total_chunks = n) ∨
    (∃ h cs, r.state.docs = st.docs ++ [⟨docId, nm, h, n⟩] ∧
      r.state.chunks = st.chunks ++ cs ∧ cs.length = n ∧
      ∀ c ∈ cs, c.document_id = docId))

theorem insertDocChunks_ok_spec {st : DBState} {nm h : List Char}
    {cd : List PyChunk} {embs : List (List ℚ)} {st2 : DBState}
    (heq : insertDocChunks st nm h cd embs = .ok st2) :
    st2.docs = st.docs ++ [⟨st.nextDocId, nm, h, cd.length⟩] ∧
    ∃ cs, st2.chunks = st.chunks ++ cs ∧ cs.length = min cd.length embs.length ∧
      ∀ c ∈ cs, c.document_id = st.nextDocId ∧
        ∃ pc ∈ cd, c.page_number = pc.page_number := by
  unfold insertDocChunks at heq
  split_ifs at heq
  injection heq with heq
  subst heq
  refine ⟨rfl, _, rfl, ?_, ?_⟩
  · rw [List.length_map, List.enum_length, List.length_zip]
  · intro c hc
    obtain ⟨p, hp, rfl⟩ := List.mem_map.mp hc
    refine ⟨rfl, p.2.1, ?_, rfl⟩
    have hmem : p.2 ∈ cd.zip embs := by
      have : p ∈ (List.range (cd.zip embs).length).zip (cd.zip embs) := by
        rw [← List.enum_eq_zip_range (cd.zip embs)]
        exact hp
      obtain ⟨i, q⟩ := p
      exact (List.of_mem_zip this).2
    exact (List.of_mem_zip hmem).1

theorem ingestCommon_post (hashFn : List Char → List Char)
    (encB : List (List Char) → Option (List (List ℚ)))
    (hwf : EncBatchWF encB) (nm : List Char) (st : DBState)
    (hashInput : List Char) (cd : List PyChunk) :
    IngestPost nm st (ingestCommon hashFn encB nm st hashInput cd) := by
  unfold ingestCommon
  cases hfind : st.docs.find? (fun d => d.hash == hashFn hashInput) with
  | some d =>
    constructor
    · intro m hm
      cases hm
    · intro docId n hm
      injection hm with hm
      injection hm with h1 h2
      left
      exact ⟨rfl, d, List.mem_of_find?_eq_some hfind, h1, h2⟩
  | none =>
    cases hins : insertDocChunks st nm (hashFn hashInput) cd
        (generateEmbeddingsBatch encB (cd.map PyChunk.text) 32) with
    | error m =>
      constructor
      · intro m' _
        rfl
      · intro docId n hm
        cases hm
    | ok st2 =>
      obtain ⟨hdocs, cs, hchunks, hlen, hmem⟩ := insertDocChunks_ok_spec hins
      constructor
      · intro m hm
        cases hm
      · intro docId n hm
        injection hm with hm
        injection hm with h1 h2
        right
        refine ⟨hashFn hashInput, cs, ?_, hchunks, ?_, ?_⟩
        · rw [← h1, ← h2]
          exact hdocs
        · rw [hlen, generateEmbeddingsBatch_length hwf, List.length_map, ← h2]
          simp
        · intro c hc
          rw [← h1]
          exact (hmem c hc).1

theorem textIngestPath_post (fuel : Nat) (hashFn : List Char → List Char)
    (encB : List (List Char) → Option (List (List ℚ)))
    (hwf : EncBatchWF encB) (nm : List Char) (st : DBState)
    (dt : Option (List Char)) (r : IngestResult)
    (hr : textIngestPath fuel hashFn encB nm st dt = some r) :
    IngestPost nm st r := by
  unfold textIngestPath at hr
  cases dt with
  | none =>
    injection hr with hr
    subst hr
    exact ⟨fun m _ => rfl, fun docId n hm => by cases hm⟩
  | some t =>
    dsimp only at hr
    by_cases ht : t.isEmpty
    · rw [if_pos ht] at hr
      injection hr with hr
      subst hr
      exact ⟨fun m _ => rfl, fun docId n hm => by cases hm⟩
    · rw [if_neg ht] at hr
      cases hc : chunkTextF 1500 300 1 fuel t with
      | none => rw [hc] at hr; cases hr
      | some cd =>
        rw [hc] at hr
        injection hr with hr
        subst hr
        exact ingestCommon_post hashFn encB hwf nm st t cd

/-- C2: every completed ingest call is atomic.  If it errors, the committed
database equals the one before the call — the single transaction rolled back
and no partial Document or Chunk rows persist — and the failure is the single
re-raised error of the `except` arm.  If it succeeds it either touched nothing
(dedup hit on an existing Document) or appended exactly one Document row and
all of its Chunk rows in the same commit. -/
theorem C2_ingest_atomicity
    (fuel : Nat) (hashFn : List Char → List Char)
    (encB : List (List Char) → Option (List (List ℚ)))
    (nm : List Char) (st : DBState) (dt : Option (List Char))
    (pp : Option (List (List Char × Int))) (r : IngestResult)
    (hwf : EncBatchWF encB)
    (hr : addPolicyDocument fuel hashFn encB nm st dt pp = some r) :
    IngestPost nm st r := by
  unfold addPolicyDocument at hr
  cases pp with
  | none => exact textIngestPath_post fuel hashFn encB hwf nm st dt r hr
  | some pages =>
    dsimp only at hr
    by_cases hs : strTruthy dt
    · rw [if_pos hs] at hr
      exact textIngestPath_post fuel hashFn encB hwf nm st dt r hr
    · rw [if_neg hs] at hr
      cases hp : processPdfPages 1500 300 fuel pages with
      | none => rw [hp] at hr; cases hr
      | some cd =>
        rw [hp] at hr
        dsimp only at hr
        by_cases hcd : cd.isEmpty
        · rw [if_pos hcd] at hr
          injection hr with hr
          subst hr
          exact ⟨fun m _ => rfl, fun docId n hm => by cases hm⟩
        · rw [if_neg hcd] at hr
          injection hr with hr
          subst hr
          exact ingestCommon_post hashFn encB hwf nm st
            (joinSpace (cd.map PyChunk.text)) cd

theorem encOne_wf : EncBatchWF encOne := by
  intro b out h
  unfold encOne at h
  injection h with h
  rw [← h, List.length_map]

/-- Witness for C2: the call with neither text nor PDF fails and leaves the
empty database untouched. -/
theorem C2_ingest_atomicity_witness :
    ∃ r, addPolicyDocument 1 hashId encOne ['n'] emptyDB none none = some r ∧
      r.state = emptyDB := by
  refine ⟨_, rfl, ?_⟩
  exact (C2_ingest_atomicity 1 hashId encOne ['n'] emptyDB none none _
    encOne_wf rfl).1 _ rfl

/-! ### C1: the second ingestion of byte-identical text is a no-op read -/

theorem ingestCommon_idempotent
    (hashFn : List Char → List Char)
    (encB1 encB2 : List (List Char) → Option (List (List ℚ)))
    (nm1 nm2 : List Char) (st : DBState) (hi : List Char) (cd : List PyChunk)
    (docId n : Nat)
    (hok : (ingestCommon hashFn encB1 nm1 st hi cd).outcome = .ok (docId, n)) :
    ingestCommon hashFn encB2 nm2 (ingestCommon hashFn encB1 nm1 st hi cd).state hi cd
      = ⟨.ok (docId, n), (ingestCommon hashFn encB1 nm1 st hi cd).state, true, false⟩ := by
  cases hfind : st.docs.find? (fun d => d.hash == hashFn hi) with
  | some d =>
    have hr : ingestCommon hashFn encB1 nm1 st hi cd
        = ⟨.ok (d.id, d.total_chunks), st, true, false⟩ := by
      unfold ingestCommon
      rw [hfind]
    rw [hr] at hok ⊢
    dsimp only at hok ⊢
    injection hok with hok
    injection hok with hid hn
    subst hid
    subst hn
    unfold ingestCommon
    rw [hfind]
  | none =>
    cases hins : insertDocChunks st nm1 (hashFn hi) cd
        (generateEmbeddingsBatch encB1 (cd.map PyChunk.text) 32) with
    | error m =>
      have hr : ingestCommon hashFn encB1 nm1 st hi cd = ⟨.error m, st, true, true⟩ := by
        unfold ingestCommon
        rw [hfind, hins]
      rw [hr] at hok
      cases hok
    | ok st2 =>
      have hr : ingestCommon hashFn encB1 nm1 st hi cd
          = ⟨.ok (st.nextDocId, cd.length), st2, true, true⟩ := by
        unfold ingestCommon
        rw [hfind, hins]
      rw [hr] at hok ⊢
      dsimp only at hok ⊢
      injection hok with hok
      injection hok with hid hn
      subst hid
      subst hn
      have hdocs := (insertDocChunks_ok_spec hins).1
      have hfind2 : st2.docs.find? (fun d => d.hash == hashFn hi)
          = some ⟨st.nextDocId, nm1, hashFn hi, cd.length⟩ := by
        rw [hdocs, List.find?_append, hfind, Option.none_or]
        exact List.find?_cons_of_pos _ (beq_self_eq_true (hashFn hi))
      unfold ingestCommon
      rw [hfind2]

/-- C1 (amended): ingestion of byte-identical text is idempotent on the
returned pair and on the database: if a first call returned `(docId, n)`, the
second call on the resulting state returns exactly `(docId, n)` again, leaves
the committed state untouched (no new Document or Chunk rows) and never
reaches the embedding stage (`didEmbed = false`, for any embedding oracle,
since the dedup lookup short-circuits before embedding).  However — contrary
to the claim as stated — the text is chunked again before the hash lookup
(`didChunk = true` is forced here): the source hashes after chunking, so the
hash hit only avoids the embedding work, not the chunking work. -/
theorem C1_second_ingest_is_noop_read
    (fuel : Nat) (hashFn : List Char → List Char)
    (encB1 encB2 : List (List Char) → Option (List (List ℚ)))
    (nm1 nm2 : List Char) (st : DBState) (t : List Char)
    (r1 : IngestResult) (docId n : Nat)
    (h1 : addPolicyDocument fuel hashFn encB1 nm1 st (some t) none = some r1)
    (hok : r1.outcome = .ok (docId, n)) :
    addPolicyDocument fuel hashFn encB2 nm2 r1.state (some t) none =
      some ⟨.ok (docId, n), r1.state, true, false⟩ := by
  unfold addPolicyDocument at h1 ⊢
  unfold textIngestPath at h1 ⊢
  dsimp only at h1 ⊢
  by_cases ht : t.isEmpty
  · rw [if_pos ht] at h1
    injection h1 with h1
    rw [← h1] at hok
    cases hok
  · rw [if_neg ht] at h1
    rw [if_neg ht]
    cases hc : chunkTextF 1500 300 1 fuel t with
    | none => rw [hc] at h1; cases h1
    | some cd =>
      rw [hc] at h1
      injection h1 with h1
      subst h1
      exact congrArg some
        (ingestCommon_idempotent hashFn encB1 encB2 nm1 nm2 st t cd docId n hok)

/-- Witness for C1 (amended): re-ingesting `"Hello."` against the state left
by the first ingestion returns the same `(0, 1)`, unchanged state, and
`didEmbed = false`. -/
theorem C1_second_ingest_is_noop_read_witness :
    addPolicyDocument 4 hashId encOne "doc2".toList
        (DBState.mk [⟨0, "doc1".toList, "Hello.".toList, 1⟩]
          [⟨0, 0, 0, "Hello.".toList, 1, 0, 1500, [1]⟩] 1 1)
        (some "Hello.".toList) none =
      some ⟨.ok (0, 1),
        DBState.mk [⟨0, "doc1".toList, "Hello.".toList, 1⟩]
          [⟨0, 0, 0, "Hello.".toList, 1, 0, 1500, [1]⟩] 1 1, true, false⟩ :=
  C1_second_ingest_is_noop_read 4 hashId encOne encOne "doc1".toList "doc2".toList
    emptyDB "Hello.".toList
    ⟨.ok (0, 1),
      DBState.mk [⟨0, "doc1".toList, "Hello.".toList, 1⟩]
        [⟨0, 0, 0, "Hello.".toList, 1, 0, 1500, [1]⟩] 1 1, true, true⟩
    0 1 rfl rfl

/-! ### The chunking loop invariant -/

/-- Every kept chunk is nonempty, carries the page number the chunker was
called with, and records exactly the window the loop computed: its end offset
is `windowEnd` of its start offset and its text is the stripped slice of the
normalized text between the two. -/
def ChunkGood (cs : Int) (t : List Char) (page : Int) (c : PyChunk) : Prop :=
  c.text ≠ [] ∧ c.page_number = page ∧ c.end_char = windowEnd cs t c.start_char ∧
    c.text = pyStrip (pySlice t c.start_char c.end_char)

theorem chunkLoop_invariant (cs ov : Int) (t : List Char) (page : Int) :
    ∀ (fuel : Nat) (start : Int) (idx : Nat) (acc l : List PyChunk),
    chunkLoop cs ov t page fuel start idx acc = some l →
    acc.map PyChunk.chunk_index = List.range idx →
    (∀ c ∈ acc, ChunkGood cs t page c) →
    l.map PyChunk.chunk_index = List.range l.length ∧
      ∀ c ∈ l, ChunkGood cs t page c := by
  intro fuel
  induction fuel with
  | zero => intro start idx acc l h; cases h
  | succ f ih =>
    intro start idx acc l h hidx hgood
    by_cases hlt : start < (t.length : Int)
    · by_cases hemp : (pyStrip (pySlice t start (windowEnd cs t start))).isEmpty
      · rw [chunkLoop_skip f hlt hemp] at h
        exact ih _ _ _ _ h hidx hgood
      · rw [chunkLoop_keep f hlt (Bool.not_eq_true _ ▸ hemp)] at h
        apply ih _ _ _ _ h
        · rw [List.map_append, hidx]
          simp [List.range_succ]
        · intro c hc
          rcases List.mem_append.mp hc with hc | hc
          · exact hgood c hc
          · rcases List.mem_singleton.mp hc with rfl
            refine ⟨?_, rfl, rfl, rfl⟩
            intro hnil
            dsimp only at hnil
            rw [hnil] at hemp
            exact hemp rfl
    · rw [chunkLoop_stop f hlt] at h
      injection h with h
      subst h
      have hlen : acc.length = idx := by
        have := congrArg List.length hidx
        simpa using this
      exact ⟨hlen ▸ hidx, hgood⟩

theorem chunkTextF_invariant {cs ov page : Int} {fuel : Nat} {raw : List Char}
    {l : List PyChunk} (h : chunkTextF cs ov page fuel raw = some l) :
    l.map PyChunk.chunk_index = List.range l.length ∧
      ∀ c ∈ l, ChunkGood cs (pyNormalize raw) page c := by
  exact chunkLoop_invariant cs ov (pyNormalize raw) page fuel 0 0 [] l h rfl
    (fun c hc => absurd hc (List.not_mem_nil c))

/-! ### C10: page numbers of stored chunks -/

/-- C10 (amended): the chunker stamps every chunk with the page number it was
called with; `process_pdf_bytes` calls it with the 1-based page of origin, so
every PDF chunk carries its (1-based) originating page; and the plain-text
ingest path calls `chunk_text` with its default `page_number = 1`, so every
chunk row stored for a plain `document_text` ingestion has `page_number = 1` —
not `0` as the claim states (the `chunk.get('page_number', 0)` fallback never
fires because the chunker always writes the key). -/
theorem C10_page_number_provenance :
    (∀ (cs ov page : Int) (fuel : Nat) (t : List Char) (l : List PyChunk),
      chunkTextF cs ov page fuel t = some l → ∀ c ∈ l, c.page_number = page) ∧
    (∀ (cs ov : Int) (fuel : Nat) (pages : List (List Char × Int))
        (l : List PyChunk),
      processPdfPages cs ov fuel pages = some l →
      ∀ c ∈ l, ∃ p ∈ pages, c.page_number = p.2) ∧
    (∀ (fuel : Nat) (hashFn : List Char → List Char)
        (encB : List (List Char) → Option (List (List ℚ)))
        (nm : List Char) (st : DBState) (t : List Char) (r : IngestResult),
      addPolicyDocument fuel hashFn encB nm st (some t) none = some r →
      ∀ c ∈ r.state.chunks, c ∉ st.chunks → c.page_number = 1) := by
  have hpage : ∀ (cs ov page : Int) (fuel : Nat) (t : List Char)
      (l : List PyChunk), chunkTextF cs ov page fuel t = some l →
      ∀ c ∈ l, c.page_number = page := by
    intro cs ov page fuel t l h c hc
    exact ((chunkTextF_invariant h).2 c hc).2.1
  refine ⟨hpage, ?_, ?_⟩
  · intro cs ov fuel pages
    induction pages with
    | nil =>
      intro l h c hc
      unfold processPdfPages at h
      injection h with h
      subst h
      exact absurd hc (List.not_mem_nil c)
    | cons pg rest ih =>
      intro l h c hc
      obtain ⟨tpg, ppg⟩ := pg
      unfold processPdfPages at h
      cases hct : chunkTextF cs ov ppg fuel tpg with
      | none => rw [hct] at h; cases h
      | some cs1 =>
        rw [hct] at h
        cases hrest : processPdfPages cs ov fuel rest with
        | none => rw [hrest] at h; cases h
        | some tail =>
          rw [hrest] at h
          injection h with h
          subst h
          rcases List.mem_append.mp hc with hc | hc
          · exact ⟨(tpg, ppg), List.mem_cons_self _ _, hpage cs ov ppg fuel tpg cs1 hct c hc⟩
          · obtain ⟨p, hp, hpeq⟩ := ih tail hrest c hc
            exact ⟨p, List.mem_cons_of_mem _ hp, hpeq⟩
  · intro fuel hashFn encB nm st t r hr c hc hnotin
    unfold addPolicyDocument at hr
    unfold textIngestPath at hr
    dsimp only at hr
    by_cases ht : t.isEmpty
    · rw [if_pos ht] at hr
      injection hr with hr
      subst hr
      exact absurd hc hnotin
    · rw [if_neg ht] at hr
      cases hct : chunkTextF 1500 300 1 fuel t with
      | none => rw [hct] at hr; cases hr
      | some cd =>
        rw [hct] at hr
        injection hr with hr
        subst hr
        revert hc
        unfold ingestCommon
        cases hfind : st.docs.find? (fun d => d.hash == hashFn t) with
        | some d =>
          intro hc
          exact absurd hc hnotin
        | none =>
          cases hins : insertDocChunks st nm (hashFn t) cd
              (generateEmbeddingsBatch encB (cd.map PyChunk.text) 32) with
          | error m =>
            intro hc
            exact absurd hc hnotin
          | ok st2 =>
            intro hc
            obtain ⟨_, cs2, hchunks, _, hmem⟩ := insertDocChunks_ok_spec hins
            show c.page_number = 1
            have hc2 : c ∈ cs2 := by
              rw [hchunks] at hc
              rcases List.mem_append.mp hc with hin | hin
              · exact absurd hin hnotin
              · exact hin
            obtain ⟨_, pc, hpc, hpg⟩ := hmem c hc2
            rw [hpg]
            exact ((chunkTextF_invariant hct).2 pc hpc).2.1

/-! ### Properties of the whitespace normalization -/

/-- No two adjacent characters are both whitespace. -/
def noWsPair (a b : Char) : Prop :=
  ¬(pyIsWs a = true ∧ pyIsWs b = true)

theorem collapseWsAux_ws_space :
    ∀ (l : List Char) (b : Bool) (x : Char), x ∈ collapseWsAux b l →
    pyIsWs x = true → x = ' ' := by
  intro l
  induction l with
  | nil => intro b x hx; exact absurd hx (List.not_mem_nil x)
  | cons c rest ih =>
    intro b x hx hws
    unfold collapseWsAux at hx
    by_cases hc : pyIsWs c
    · rw [if_pos hc] at hx
      rcases List.mem_append.mp hx with hx | hx
      · cases b with
        | true => exact absurd hx (List.not_mem_nil x)
        | false =>
          rcases List.mem_singleton.mp hx with rfl
          rfl
      · exact ih true x hx hws
    · rw [if_neg hc] at hx
      rcases List.mem_cons.mp hx with rfl | hx
      · exact absurd hws (by simpa using hc)
      · exact ih false x hx hws

theorem collapseWsAux_chain :
    ∀ l : List Char,
    (∀ x, (collapseWsAux true l).head? = some x → pyIsWs x = false) ∧
    List.Chain' noWsPair (collapseWsAux true l) ∧
    List.Chain' noWsPair (collapseWsAux false l) := by
  intro l
  induction l with
  | nil => exact ⟨fun x hx => Option.noConfusion hx, List.chain'_nil, List.chain'_nil⟩
  | cons c rest ih =>
    obtain ⟨ih1, ih2, ih3⟩ := ih
    by_cases hc : pyIsWs c
    · have e1 : collapseWsAux true (c :: rest) = collapseWsAux true rest := by
        show (if pyIsWs c = true then
            (if (true : Bool) = true then [] else [' ']) ++ collapseWsAux true rest
          else c :: collapseWsAux false rest) = collapseWsAux true rest
        rw [if_pos hc]
        simp
      have e2 : collapseWsAux false (c :: rest) = ' ' :: collapseWsAux true rest := by
        show (if pyIsWs c = true then
            (if (false : Bool) = true then [] else [' ']) ++ collapseWsAux true rest
          else c :: collapseWsAux false rest) = ' ' :: collapseWsAux true rest
        rw [if_pos hc]
        simp
      refine ⟨?_, ?_, ?_⟩
      · rw [e1]; exact ih1
      · rw [e1]; exact ih2
      · rw [e2]
        apply List.chain'_cons'.mpr
        refine ⟨?_, ih2⟩
        intro y hy
        intro hcon
        have := ih1 y hy
        rw [this] at hcon
        exact Bool.false_ne_true hcon.2
    · have e1 : collapseWsAux true (c :: rest) = c :: collapseWsAux false rest := by
        show (if pyIsWs c = true then
            (if (true : Bool) = true then [] else [' ']) ++ collapseWsAux true rest
          else c :: collapseWsAux false rest) = c :: collapseWsAux false rest
        rw [if_neg hc]
      have e2 : collapseWsAux false (c :: rest) = c :: collapseWsAux false rest := by
        show (if pyIsWs c = true then
            (if (false : Bool) = true then [] else [' ']) ++ collapseWsAux true rest
          else c :: collapseWsAux false rest) = c :: collapseWsAux false rest
        rw [if_neg hc]
      have hchain : List.Chain' noWsPair (c :: collapseWsAux false rest) := by
        apply List.chain'_cons'.mpr
        refine ⟨?_, ih3⟩
        intro y _
        intro hcon
        exact hc (by simpa using hcon.1)
      refine ⟨?_, ?_, ?_⟩
      · rw [e1]
        intro x hx
        injection hx with hx
        rw [← hx]
        simpa using hc
      · rw [e1]; exact hchain
      · rw [e2]; exact hchain

theorem collapseWsAux_filter :
    ∀ (l : List Char) (b : Bool),
    (collapseWsAux b l).filter (fun c => !pyIsWs c) =
      l.filter (fun c => !pyIsWs c) := by
  intro l
  induction l with
  | nil => intro b; rfl
  | cons c rest ih =>
    intro b
    unfold collapseWsAux
    by_cases hc : pyIsWs c
    · rw [if_pos hc, List.filter_append]
      have h1 : (if b then ([] : List Char) else [' ']).filter (fun c => !pyIsWs c)
          = [] := by
        cases b <;> rfl
      rw [h1, List.nil_append, ih true]
      rw [List.filter_cons_of_neg (by simpa using hc)]
    · rw [if_neg hc]
      rw [List.filter_cons_of_pos (by simpa using hc),
        List.filter_cons_of_pos (by simpa using hc), ih false]

theorem dropWhile_filter (p : Char → Bool) :
    ∀ l : List Char, (l.dropWhile p).filter (fun c => !p c) =
      l.filter (fun c => !p c) := by
  intro l
  induction l with
  | nil => rfl
  | cons c rest ih =>
    by_cases hc : p c
    · rw [List.dropWhile_cons_of_pos hc, ih,
        List.filter_cons_of_neg (by simpa using hc)]
    · rw [List.dropWhile_cons_of_neg hc]

theorem head?_dropWhile_false (p : Char → Bool) :
    ∀ l : List Char, ∀ x, (l.dropWhile p).head? = some x → p x = false := by
  intro l
  induction l with
  | nil => intro x hx; cases hx
  | cons c rest ih =>
    intro x hx
    by_cases hc : p c
    · rw [List.dropWhile_cons_of_pos hc] at hx
      exact ih x hx
    · rw [List.dropWhile_cons_of_neg hc] at hx
      injection hx with hx
      rw [← hx]
      simpa using hc

theorem pyStrip_filter (l : List Char) :
    (pyStrip l).filter (fun c => !pyIsWs c) = l.filter (fun c => !pyIsWs c) := by
  unfold pyStrip
  rw [List.filter_reverse, dropWhile_filter, List.filter_reverse,
    List.reverse_reverse, dropWhile_filter]

theorem pyStrip_subset (l : List Char) : pyStrip l ⊆ l := by
  unfold pyStrip
  intro x hx
  rw [List.mem_reverse] at hx
  have hx2 := ((List.dropWhile_suffix pyIsWs).sublist.subset) hx
  rw [List.mem_reverse] at hx2
  exact ((List.dropWhile_suffix pyIsWs).sublist.subset) hx2

theorem noWsPair_symm {a b : Char} (h : noWsPair a b) : noWsPair b a := by
  intro hcon
  exact h ⟨hcon.2, hcon.1⟩

theorem pyStrip_chain {l : List Char} (h : List.Chain' noWsPair l) :
    List.Chain' noWsPair (pyStrip l) := by
  unfold pyStrip
  apply List.chain'_reverse.mpr
  apply List.Chain'.imp (fun a b hab => noWsPair_symm hab)
  apply List.Chain'.suffix ?_ (List.dropWhile_suffix pyIsWs)
  apply List.chain'_reverse.mpr
  apply List.Chain'.imp (fun a b hab => noWsPair_symm hab)
  exact List.Chain'.suffix h (List.dropWhile_suffix pyIsWs)

theorem pyStrip_head_not_ws (l : List Char) :
    ∀ x, (pyStrip l).head? = some x → pyIsWs x = false := by
  intro x hx
  unfold pyStrip at hx
  rw [List.head?_reverse] at hx
  have hsuf : ((l.dropWhile pyIsWs).reverse.dropWhile pyIsWs)
      <:+ (l.dropWhile pyIsWs).reverse := List.dropWhile_suffix pyIsWs
  obtain ⟨w, hw⟩ := hsuf
  have hne : (l.dropWhile pyIsWs).reverse.dropWhile pyIsWs ≠ [] := by
    intro hnil
    rw [hnil] at hx
    cases hx
  have hlast : ((l.dropWhile pyIsWs).reverse).getLast? = some x := by
    rw [← hw, List.getLast?_append_of_ne_nil w hne]
    exact hx
  rw [List.getLast?_reverse] at hlast
  exact head?_dropWhile_false pyIsWs l x hlast

theorem pyStrip_getLast_not_ws (l : List Char) :
    ∀ x, (pyStrip l).getLast? = some x → pyIsWs x = false := by
  intro x hx
  unfold pyStrip at hx
  rw [List.getLast?_reverse] at hx
  exact head?_dropWhile_false pyIsWs _ x hx

/-! ### C7: the window-boundary rule -/

theorem lastHitAux_le {c : Char} {lo hi : Nat} :
    ∀ (s : List Char) (i : Nat) (best bound : Int),
    best ≤ bound →
    (∀ k, k < s.length → lo ≤ i + k → i + k < hi → bound < ((i + k : Nat) : Int) →
      s[k]? ≠ some c) →
    lastHitAux c lo hi s i best ≤ bound := by
  intro s
  induction s with
  | nil => intro i best bound hb _; exact hb
  | cons x xs ih =>
    intro i best bound hb h
    show lastHitAux c lo hi xs (i + 1)
      (if lo ≤ i ∧ i < hi ∧ x = c then (i : Int) else best) ≤ bound
    apply ih
    · by_cases hcond : lo ≤ i ∧ i < hi ∧ x = c
      · rw [if_pos hcond]
        by_contra hgt
        push_neg at hgt
        have hne := h 0 (by simp) (by simpa using hcond.1) (by simpa using hcond.2.1)
          (by simpa using hgt)
        exact hne (by simp [hcond.2.2])
      · rw [if_neg hcond]
        exact hb
    · intro k hk hlo hhi hbd
      have := h (k + 1) (by simpa using Nat.succ_lt_succ hk)
        (by omega) (by omega) (by push_cast at hbd ⊢; omega)
      simpa [Nat.add_assoc, Nat.add_comm 1 k] using this

theorem pyRfindChar_le {s : List Char} {c : Char} {a b : Int} (bound : Int)
    (hneg : -1 ≤ bound)
    (h : ∀ k : Nat, k < s.length → sliceAdj s.length a ≤ k →
      k < sliceAdj s.length b → bound < (k : Int) → s[k]? ≠ some c) :
    pyRfindChar s c a b ≤ bound := by
  unfold pyRfindChar
  apply lastHitAux_le s 0 (-1) bound hneg
  intro k hk hlo hhi hbd
  exact h k hk (by simpa using hlo) (by simpa using hhi) (by simpa using hbd)

/-- Position `j` of the text holds a sentence terminator. -/
def termAt (t : List Char) (j : Nat) : Prop :=
  t[j]? = some '.' ∨ t[j]? = some '!' ∨ t[j]? = some '?'

/-- C7: the chunker's contract.
First, `chunk_text` operates on the whitespace-normalized text, and the
normalization does what the claim says: it keeps the non-whitespace characters
unchanged and in order, maps every remaining whitespace character to a single
space, leaves no two adjacent whitespace characters (runs are collapsed), and
trims both ends.
Second, in every finished run the kept chunks are the nonempty stripped
windows (each recorded `end_char` is `windowEnd` of its `start_char`), and
`chunk_index` is assigned densely over the kept chunks starting at 0.
Third, `windowEnd` realizes the boundary rule: when the naive end
`start + chunk_size` does not fall before the text's end it is kept; when it
does, the boundary is pulled back to just past the greatest sentence
terminator strictly after the window start if one exists in the window, and
the naive end is kept otherwise. -/
theorem C7_chunker_contract :
    (∀ raw : List Char,
      (pyNormalize raw).filter (fun c => !pyIsWs c) =
        raw.filter (fun c => !pyIsWs c) ∧
      (∀ x ∈ pyNormalize raw, pyIsWs x = true → x = ' ') ∧
      List.Chain' noWsPair (pyNormalize raw) ∧
      (∀ x, (pyNormalize raw).head? = some x → pyIsWs x = false) ∧
      (∀ x, (pyNormalize raw).getLast? = some x → pyIsWs x = false)) ∧
    (∀ (cs ov page : Int) (fuel : Nat) (raw : List Char) (l : List PyChunk),
      chunkTextF cs ov page fuel raw = some l →
      l.map PyChunk.chunk_index = List.range l.length ∧
      ∀ c ∈ l, c.text ≠ [] ∧
        c.end_char = windowEnd cs (pyNormalize raw) c.start_char ∧
        c.text = pyStrip (pySlice (pyNormalize raw) c.start_char c.end_char)) ∧
    (∀ (cs : Int) (t : List Char) (start : Int), 0 ≤ start → 0 < cs →
      (¬(start + cs < (t.length : Int)) → windowEnd cs t start = start + cs) ∧
      ((start + cs < (t.length : Int)) →
        ((∀ j : Nat, start < (j : Int) → (j : Int) < start + cs → ¬termAt t j) →
          windowEnd cs t start = start + cs) ∧
        (∀ j : Nat, start < (j : Int) → (j : Int) < start + cs → termAt t j →
          (∀ m : Nat, (m : Int) < start + cs → j < m → ¬termAt t m) →
          windowEnd cs t start = (j : Int) + 1))) := by
  refine ⟨?_, ?_, ?_⟩
  · intro raw
    refine ⟨?_, ?_, ?_, ?_, ?_⟩
    · unfold pyNormalize collapseWs
      rw [pyStrip_filter, collapseWsAux_filter]
    · intro x hx hws
      exact collapseWsAux_ws_space raw false x (pyStrip_subset _ hx) hws
    · exact pyStrip_chain (collapseWsAux_chain raw).2.2
    · exact pyStrip_head_not_ws _
    · exact pyStrip_getLast_not_ws _
  · intro cs ov page fuel raw l h
    obtain ⟨hidx, hgood⟩ := chunkTextF_invariant h
    refine ⟨hidx, ?_⟩
    intro c hc
    obtain ⟨h1, _, h3, h4⟩ := hgood c hc
    exact ⟨h1, h3, h4⟩
  · intro cs t start h0 hcs
    constructor
    · intro hnl
      unfold windowEnd
      rw [if_neg hnl]
    · intro hlt
      have hlo : sliceAdj t.length start = start.toNat := by
        unfold sliceAdj
        rw [if_neg (by omega : ¬start < 0)]
        omega
      have hhi : sliceAdj t.length (start + cs) = (start + cs).toNat := by
        unfold sliceAdj
        rw [if_neg (by omega : ¬start + cs < 0)]
        omega
      constructor
      · intro hnone
        have hb : ∀ ch : Char, (∀ m : Nat, t[m]? = some ch → termAt t m) →
            pyRfindChar t ch start (start + cs) ≤ start := by
          intro ch hch
          apply pyRfindChar_le start (by omega)
          intro k _ hklo hkhi hkb hgetc
          rw [hhi] at hkhi
          exact hnone k hkb (by omega) (hch k hgetc)
        have hdot := hb '.' (fun m hm => Or.inl hm)
        have hbang := hb '!' (fun m hm => Or.inr (Or.inl hm))
        have hq := hb '?' (fun m hm => Or.inr (Or.inr hm))
        unfold windowEnd
        rw [if_pos hlt]
        rw [if_neg (not_lt.mpr (max_le hdot (max_le hbang hq)))]
      · intro j hj1 hj2 hterm hmax
        have hjlen : j < t.length := by omega
        have hbound : ∀ ch : Char, (∀ m : Nat, t[m]? = some ch → termAt t m) →
            pyRfindChar t ch start (start + cs) ≤ (j : Int) := by
          intro ch hch
          apply pyRfindChar_le (j : Int) (by omega)
          intro m _ hmlo hmhi hmb hgetc
          rw [hhi] at hmhi
          exact hmax m (by omega) (by omega) (hch m hgetc)
        have hexact : ∀ ch : Char, t[j]? = some ch →
            (∀ m : Nat, t[m]? = some ch → termAt t m) →
            pyRfindChar t ch start (start + cs) = (j : Int) := by
          intro ch hchj hch
          apply pyRfindChar_eq_max j hjlen
          · rw [hlo, hhi]
            exact ⟨by omega, by omega, hchj⟩
          · intro m _ hjm
            rw [hlo, hhi]
            intro hcon
            exact hmax m (by omega) hjm (hch m hcon.2.2)
        rcases hterm with hD | hB | hQ
        · have hdot := hexact '.' hD (fun m hm => Or.inl hm)
          have hbang := hbound '!' (fun m hm => Or.inr (Or.inl hm))
          have hq := hbound '?' (fun m hm => Or.inr (Or.inr hm))
          unfold windowEnd
          rw [if_pos hlt, hdot]
          rw [max_eq_left (max_le hbang hq)]
          rw [if_pos (by omega : (j : Int) > start)]
        · have hdot := hbound '.' (fun m hm => Or.inl hm)
          have hbang := hexact '!' hB (fun m hm => Or.inr (Or.inl hm))
          have hq := hbound '?' (fun m hm => Or.inr (Or.inr hm))
          unfold windowEnd
          rw [if_pos hlt, hbang]
          rw [max_eq_left hq, max_eq_right hdot]
          rw [if_pos (by omega : (j : Int) > start)]
        · have hdot := hbound '.' (fun m hm => Or.inl hm)
          have hbang := hbound '!' (fun m hm => Or.inr (Or.inl hm))
          have hq := hexact '?' hQ (fun m hm => Or.inr (Or.inr hm))
          unfold windowEnd
          rw [if_pos hlt, hq]
          rw [max_eq_right hbang, max_eq_right hdot]
          rw [if_pos (by omega : (j : Int) > start)]

/-- Witness for C7: chunking `"A. B. C. A. B. C. "` with `chunk_size = 10`,
`overlap = 3` finishes with densely indexed chunks. -/
theorem C7_chunker_contract_witness :
    ∃ l, chunkTextF 10 3 1 6 "A. B. C. A. B. C. ".toList = some l ∧
      l.map PyChunk.chunk_index = List.range l.length := by
  refine ⟨_, rfl, ?_⟩
  exact (C7_chunker_contract.2.1 10 3 1 6 "A. B. C. A. B. C. ".toList _ rfl).1

/-- Witness for C10 (amended): chunking a page text with page number `7`
stamps every chunk with `7`; the plain-text ingest path uses page `1`. -/
theorem C10_page_number_provenance_witness :
    ∃ l, chunkTextF 10 3 7 5 "Hi.".toList = some l ∧
      ∀ c ∈ l, c.page_number = 7 := by
  refine ⟨_, rfl, ?_⟩
  exact C10_page_number_provenance.1 10 3 7 5 "Hi.".toList _ rfl
